import Mathlib

/-!
Verification of the ROC (Random Order Coding) set codec from `src/roc.rs`.

Modelling conventions:
* Bytes and machine integers (`u8`, `u32`, `u64`, `usize`) are modelled as `ℕ`.
  Where the source truncates (`as u8`, `as u32`) the model takes the value
  modulo the corresponding power of two.  The reconstruction
  `ids.last().unwrap() + delta as u32` in `decompress_set` is `u32` addition;
  it is modelled with release-profile wrapping semantics, i.e. modulo `2^32`
  (with overflow checks enabled this addition would panic instead; either way
  the sum is not checked against `u32::MAX`).
* Fallible functions return `Except CompressionError`.
* `f64` arithmetic in `theoretical_bits` / `bits_per_id` is modelled over the
  exact reals `ℝ`; the `as usize` cast of the nonnegative float in
  `estimate_size` is modelled by `Nat.floor` capped at `usize::MAX`
  (Rust float-to-int casts saturate).  The claims settled here depend only
  on the branches where the float value is the literal `0.0`, on the cast
  result being a natural number, and on the magnitude bound
  `n * log2(U / n) ≤ 32 * n` for `n ≤ U < 2^32`, which holds of the ideal
  reals and — far below the `2^64` margin it is used against — of `f64`.
* `usize` arithmetic in `estimate_size` (`num_ids * 3`, the division's
  operand, and the final sum) wraps modulo `2^64`, the release-profile
  semantics; with overflow checks enabled the product panics instead for
  `num_ids` above `⌈2^64 / 3⌉`.
* Several source error messages interpolate runtime values
  (`format!(...)`); the model carries fixed message strings, and claim
  statements about such errors pin only the error kind, never the message.
* The four `IdSetCompressor` trait methods take the `RocCompressor` value as
  `self`, exactly as in the `impl` block; none of their bodies reads it.
-/

instance {ε α : Type} [DecidableEq ε] [DecidableEq α] : DecidableEq (Except ε α)
  | .ok a, .ok b => decidable_of_iff (a = b) (by simp)
  | .ok _, .error _ => isFalse (fun h => Except.noConfusion h)
  | .error _, .ok _ => isFalse (fun h => Except.noConfusion h)
  | .error e, .error f => decidable_of_iff (e = f) (by simp)

/-- Modelled from the spec: the `CompressionError` type lives in the crate's
`error` module, which is not among the provided sources.  Spec §7 describes
exactly two error kinds, both carrying a descriptive message. -/
inductive CompressionError where
  | InvalidInput : String → CompressionError
  | DecompressionFailed : String → CompressionError
deriving DecidableEq, Repr

/-- Rust `RocCompressor::validate_ids`: walk the sequence and fail with
`InvalidInput` the moment `ids[i] <= ids[i-1]`. -/
def validate_ids : List ℕ → Except CompressionError Unit
  | [] => .ok ()
  | [_] => .ok ()
  | a :: b :: rest =>
    if b ≤ a then .error (.InvalidInput "IDs must be sorted and unique")
    else validate_ids (b :: rest)

/-- Rust `RocCompressor::encode_varint`: while `val >= 0x80` emit
`(val as u8) | 0x80` and shift right by 7; finally emit the low byte. -/
def encode_varint (value : ℕ) : List ℕ :=
  if value < 128 then [value]
  else (value % 256 ||| 128) :: encode_varint (value / 128)
decreasing_by exact Nat.div_lt_self (by omega) (by omega)

/-- The loop of `RocCompressor::decode_varint`: accumulate 7-bit groups,
low group first; fail on exhausted input or when the shift exceeds 56.
The list argument is the not-yet-consumed suffix of the buffer and
`offset` counts the bytes consumed so far. -/
def decode_varint_loop : List ℕ → ℕ → ℕ → ℕ → Except CompressionError (ℕ × ℕ)
  | [], _, _, _ => .error (.DecompressionFailed "Unexpected end of compressed data")
  | byte :: rest, value, shift, offset =>
    if 56 < shift then .error (.DecompressionFailed "Varint encoding too large")
    else
      let value' := value ||| ((byte &&& 127) <<< shift)
      if byte &&& 128 == 0 then .ok (value', offset + 1)
      else decode_varint_loop rest value' (shift + 7) (offset + 1)

/-- Rust `RocCompressor::decode_varint`, returning `(value, bytes_consumed)`. -/
def decode_varint (buf : List ℕ) : Except CompressionError (ℕ × ℕ) :=
  decode_varint_loop buf 0 0 0

/-- The delta-encoding loop of `compress_set`: for each element emit the
varint of its gap to the previous element. -/
def encode_deltas : ℕ → List ℕ → List ℕ
  | _, [] => []
  | prev, x :: rest => encode_varint (x - prev) ++ encode_deltas x rest

/-- The byte buffer assembled by `compress_set` for a validated input:
`varint(count)`, then (if the list is non-empty) `varint(first)` followed by
the delta varints. -/
def compress_payload (ids : List ℕ) : List ℕ :=
  encode_varint ids.length ++
    match ids with
    | [] => []
    | first :: rest => encode_varint first ++ encode_deltas first rest

/-- The delta-decoding loop of `decompress_set`: `remaining` iterations,
each decoding one varint delta from the buffer at `offset` and
reconstructing `next_id = ids.last().unwrap() + delta as u32` with `u32`
wrapping semantics, rejecting reconstructed ids `≥ universe_size`. -/
def decode_deltas (compressed : List ℕ) (universe_size : ℕ) :
    ℕ → ℕ → List ℕ → ℕ → Except CompressionError (List ℕ × ℕ)
  | 0, offset, ids, _ => .ok (ids, offset)
  | remaining + 1, offset, ids, last =>
    match decode_varint (compressed.drop offset) with
    | .error e => .error e
    | .ok (delta, consumed) =>
      let next_id := (last + delta % 2 ^ 32) % 2 ^ 32
      if universe_size ≤ next_id then
        .error (.DecompressionFailed "ID exceeds universe size")
      else
        decode_deltas compressed universe_size remaining (offset + consumed)
          (ids ++ [next_id]) next_id

/-- Rust `RocCompressor::theoretical_bits`, the Stirling-style closed form
`n * log2(universe / n)`, with `f64` modelled as exact reals. -/
noncomputable def theoretical_bits (num_ids universe_size : ℕ) : ℝ :=
  if num_ids = 0 then 0
  else if universe_size < num_ids then 0
  else if (universe_size : ℝ) / (num_ids : ℝ) ≤ 1 then 0
  else (num_ids : ℝ) * Real.log ((universe_size : ℝ) / (num_ids : ℝ)) / Real.log 2

/-- The `RocCompressor` struct: it stores only the reserved ANS
quantization precision (unused by every active code path). -/
structure RocCompressor where
  ans_precision : ℕ

/-- Rust `RocCompressor::new`, default precision `1 << 12`. -/
def RocCompressor.new : RocCompressor := ⟨1 <<< 12⟩

/-- Rust `RocCompressor::with_precision`. -/
def RocCompressor.with_precision (precision : ℕ) : RocCompressor := ⟨precision⟩

/-- Trait method `RocCompressor::compress_set` (from
`impl IdSetCompressor for RocCompressor`): validate, return an empty buffer
for the empty set, bounds-check the maximum, then emit count, first id and
deltas as varints.  The body never reads `self`. -/
def RocCompressor.compress_set (_self : RocCompressor) (ids : List ℕ)
    (universe_size : ℕ) : Except CompressionError (List ℕ) :=
  match validate_ids ids with
  | .error e => .error e
  | .ok _ =>
    if ids.isEmpty then .ok []
    else
      match ids.max? with
      | some max_id =>
        if universe_size ≤ max_id then
          .error (.InvalidInput "ID exceeds universe size")
        else .ok (compress_payload ids)
      | none => .ok (compress_payload ids)

/-- Trait method `RocCompressor::decompress_set`: empty buffer decodes to
the empty set; otherwise decode the count (count `0` returns the empty set
immediately), the first id (rejected if `≥ universe_size`, pushed truncated
to `u32`), then `count - 1` deltas, and finally reject leftover bytes.  The
body never reads `self`. -/
def RocCompressor.decompress_set (_self : RocCompressor) (compressed : List ℕ)
    (universe_size : ℕ) : Except CompressionError (List ℕ) :=
  if compressed.isEmpty then .ok []
  else
    match decode_varint compressed with
    | .error e => .error e
    | .ok (num_ids, c1) =>
      if num_ids == 0 then .ok []
      else
        match decode_varint (compressed.drop c1) with
        | .error e => .error e
        | .ok (first_id, c2) =>
          if universe_size ≤ first_id then
            .error (.DecompressionFailed "ID exceeds universe size")
          else
            match decode_deltas compressed universe_size (num_ids - 1) (c1 + c2)
                [first_id % 2 ^ 32] (first_id % 2 ^ 32) with
            | .error e => .error e
            | .ok (ids, offset) =>
              if offset < compressed.length then
                .error (.DecompressionFailed "Extra data after decompression")
              else .ok ids

/-- Trait method `RocCompressor::estimate_size`: bits over eight, cast to
`usize` (a saturating cast, so `Nat.floor` capped at `usize::MAX`), plus
the varint overhead `(num_ids * 3) / 2` computed in `usize`: the product
`num_ids * 3` and the final addition wrap modulo `2^64` under the release
profile (with overflow checks the product panics for huge `num_ids`).
The body never reads `self`. -/
noncomputable def RocCompressor.estimate_size (_self : RocCompressor)
    (num_ids universe_size : ℕ) : ℕ :=
  if num_ids = 0 then 0
  else (min ⌊theoretical_bits num_ids universe_size / 8⌋₊ (2 ^ 64 - 1)
    + num_ids * 3 % 2 ^ 64 / 2) % 2 ^ 64

/-- Trait method `RocCompressor::bits_per_id`: theoretical bits divided by
the number of ids.  The body never reads `self`. -/
noncomputable def RocCompressor.bits_per_id (_self : RocCompressor)
    (num_ids universe_size : ℕ) : ℝ :=
  if num_ids = 0 then 0
  else theoretical_bits num_ids universe_size / (num_ids : ℝ)

/-! ## Varint lemmas -/

lemma lor_two_pow_eq_add {b k : ℕ} (h : b < 2 ^ k) : b ||| 2 ^ k = b + 2 ^ k := by
  calc b ||| 2 ^ k = 2 ^ k ||| b := Nat.lor_comm _ _
    _ = 2 ^ k * 1 ||| b := by rw [Nat.mul_one]
    _ = 2 ^ k * 1 + b := (Nat.mul_add_lt_is_or h 1).symm
    _ = b + 2 ^ k := by ring

lemma lor_mul_two_pow_eq_add {a b k : ℕ} (h : a < 2 ^ k) :
    a ||| b * 2 ^ k = a + b * 2 ^ k := by
  calc a ||| b * 2 ^ k = b * 2 ^ k ||| a := Nat.lor_comm _ _
    _ = 2 ^ k * b ||| a := by rw [Nat.mul_comm]
    _ = 2 ^ k * b + a := (Nat.mul_add_lt_is_or h b).symm
    _ = a + b * 2 ^ k := by ring

lemma mod256_lor_128 (v : ℕ) : v % 256 ||| 128 = v % 128 + 128 := by
  have h128 : v % 128 = v % 256 % 128 := (Nat.mod_mod_of_dvd v (by norm_num)).symm
  have hblt : v % 256 < 256 := Nat.mod_lt _ (by norm_num)
  by_cases hc : v % 256 < 128
  · have h1 : v % 256 ||| 2 ^ 7 = v % 256 + 2 ^ 7 :=
      lor_two_pow_eq_add (by simpa using hc)
    simp only [show (2 : ℕ) ^ 7 = 128 from rfl] at h1
    omega
  · have hsplit : v % 256 = 128 + v % 256 % 128 := by omega
    have hb2 : v % 256 % 128 < 128 := Nat.mod_lt _ (by norm_num)
    have h1 : v % 256 % 128 ||| 2 ^ 7 = v % 256 % 128 + 2 ^ 7 :=
      lor_two_pow_eq_add (by simpa using hb2)
    simp only [show (2 : ℕ) ^ 7 = 128 from rfl] at h1
    calc v % 256 ||| 128 = (v % 256 % 128 + 128) ||| 128 := by congr 1; omega
      _ = (v % 256 % 128 ||| 128) ||| 128 := by rw [h1]
      _ = v % 256 % 128 ||| (128 ||| 128) := Nat.lor_assoc _ _ _
      _ = v % 256 % 128 ||| 128 := by rw [Nat.or_self]
      _ = v % 256 % 128 + 128 := h1
      _ = v % 128 + 128 := by omega

lemma encode_varint_low {v : ℕ} (h : v < 128) : encode_varint v = [v] := by
  rw [encode_varint]
  simp [h]

lemma encode_varint_high {v : ℕ} (h : 128 ≤ v) :
    encode_varint v = (v % 128 + 128) :: encode_varint (v / 128) := by
  rw [encode_varint]
  rw [if_neg (by omega)]
  rw [mod256_lor_128]

lemma encode_varint_length_pos (v : ℕ) : 1 ≤ (encode_varint v).length := by
  by_cases h : v < 128
  · rw [encode_varint_low h]; simp
  · rw [encode_varint_high (by omega)]; simp

lemma and_127_of_lt {v : ℕ} (h : v < 128) : v &&& 127 = v := by
  have := Nat.and_pow_two_sub_one_of_lt_two_pow (x := v) (n := 7) (by simpa using h)
  simpa using this

lemma and_128_of_lt {v : ℕ} (h : v < 128) : v &&& 128 = 0 := by
  have h2 := Nat.and_two_pow v 7
  have ht : v.testBit 7 = false := Nat.testBit_lt_two_pow (by simpa using h)
  rw [ht] at h2
  simpa using h2

lemma byte_and_127 (v : ℕ) : (v % 128 + 128) &&& 127 = v % 128 := by
  have := Nat.and_pow_two_sub_one_eq_mod (v % 128 + 128) 7
  norm_num at this
  rw [this]

lemma byte_and_128 (v : ℕ) : (v % 128 + 128) &&& 128 = 128 := by
  have h2 := Nat.and_two_pow (v % 128 + 128) 7
  have ht : (v % 128 + 128).testBit 7 = true := by
    rw [Nat.testBit_to_div_mod]
    have : (v % 128 + 128) / 2 ^ 7 = 1 := by
      simp only [show (2 : ℕ) ^ 7 = 128 from rfl]
      omega
    rw [this]
    simp
  rw [ht] at h2
  simpa using h2

/-- Running the decode loop on an encoded value followed by anything else
yields the accumulated value and consumes exactly the encoded bytes.  The
shift is `7 * k` for the `k`-th byte group. -/
lemma decode_loop_enc :
    ∀ (v k value offset : ℕ) (tail : List ℕ),
      7 * k ≤ 56 → v < 2 ^ (63 - 7 * k) → value < 2 ^ (7 * k) →
      decode_varint_loop (encode_varint v ++ tail) value (7 * k) offset
        = .ok (value + v * 2 ^ (7 * k), offset + (encode_varint v).length) := by
  intro v
  induction v using Nat.strong_induction_on with
  | _ v ih =>
    intro k value offset tail hk hv hval
    have hc : ¬ (56 : ℕ) < 7 * k := by omega
    by_cases hlow : v < 128
    · rw [encode_varint_low hlow, List.singleton_append]
      simp only [decode_varint_loop, hc, if_false,
        and_127_of_lt hlow, and_128_of_lt hlow]
      have hor : value ||| v <<< (7 * k) = value + v * 2 ^ (7 * k) := by
        rw [Nat.shiftLeft_eq]
        exact lor_mul_two_pow_eq_add hval
      simp [hor]
    · push_neg at hlow
      have hklt : 7 * k ≤ 49 := by
        by_contra hgt
        have hk8 : k = 8 := by omega
        subst hk8
        norm_num at hv
        omega
      rw [encode_varint_high hlow, List.cons_append]
      simp only [decode_varint_loop, hc, if_false, byte_and_127, byte_and_128]
      have hor : value ||| (v % 128) <<< (7 * k) = value + v % 128 * 2 ^ (7 * k) := by
        rw [Nat.shiftLeft_eq]
        exact lor_mul_two_pow_eq_add hval
      have hne : ((128 : ℕ) == 0) = false := by decide
      simp only [hor, hne, if_false, Bool.false_eq_true]
      have hstep : 7 * k + 7 = 7 * (k + 1) := by ring
      rw [hstep]
      have hdiv : v / 128 < v := Nat.div_lt_self (by omega) (by omega)
      have h1 : 7 * (k + 1) ≤ 56 := by omega
      have h2 : v / 128 < 2 ^ (63 - 7 * (k + 1)) := by
        have hsub : 63 - 7 * (k + 1) = 56 - 7 * k := by omega
        rw [hsub]
        rw [Nat.div_lt_iff_lt_mul (by norm_num : (0 : ℕ) < 128)]
        calc v < 2 ^ (63 - 7 * k) := hv
          _ = 2 ^ (56 - 7 * k) * 128 := by
            rw [show (128 : ℕ) = 2 ^ 7 from rfl, ← pow_add]
            congr 1
            omega
      have h3 : value + v % 128 * 2 ^ (7 * k) < 2 ^ (7 * (k + 1)) := by
        have hm : v % 128 ≤ 127 := by omega
        have : value + v % 128 * 2 ^ (7 * k) < 2 ^ (7 * k) + 127 * 2 ^ (7 * k) := by
          have := Nat.mul_le_mul_right (2 ^ (7 * k)) hm
          omega
        calc value + v % 128 * 2 ^ (7 * k)
            < 2 ^ (7 * k) + 127 * 2 ^ (7 * k) := this
          _ = 128 * 2 ^ (7 * k) := by ring
          _ = 2 ^ (7 * (k + 1)) := by
            rw [show (128 : ℕ) = 2 ^ 7 from rfl, ← pow_add]
            congr 1
            omega
      rw [ih (v / 128) hdiv (k + 1) _ (offset + 1) tail h1 h2 h3]
      have hp : 2 ^ (7 * (k + 1)) = 2 ^ (7 * k) * 128 := by
        have hq : 7 * (k + 1) = 7 * k + 7 := by ring
        rw [hq, pow_add]
        norm_num
      have hA : value + v % 128 * 2 ^ (7 * k) + v / 128 * 2 ^ (7 * (k + 1))
          = value + v * 2 ^ (7 * k) := by
        rw [hp]
        calc value + v % 128 * 2 ^ (7 * k) + v / 128 * (2 ^ (7 * k) * 128)
            = value + (v % 128 + 128 * (v / 128)) * 2 ^ (7 * k) := by ring
          _ = value + v * 2 ^ (7 * k) := by
            congr 2
            omega
      have hB : offset + 1 + (encode_varint (v / 128)).length
          = offset + ((v % 128 + 128) :: encode_varint (v / 128)).length := by
        simp only [List.length_cons]
        omega
      rw [hA, hB]

/-- Decoding an encoded `u64` value below `2^63` followed by anything else
succeeds with exactly that value, consuming exactly the encoded bytes. -/
lemma decode_varint_encode {v : ℕ} (tail : List ℕ) (hv : v < 2 ^ 63) :
    decode_varint (encode_varint v ++ tail)
      = .ok (v, (encode_varint v).length) := by
  have := decode_loop_enc v 0 0 0 tail (by norm_num) (by simpa using hv)
    (by norm_num)
  simpa using this

lemma encode_varint_cons (v : ℕ) : ∃ y l, encode_varint v = y :: l := by
  by_cases h : v < 128
  · exact ⟨v, [], encode_varint_low h⟩
  · exact ⟨_, _, encode_varint_high (by omega)⟩

lemma encode_varint_length_le :
    ∀ n v : ℕ, v < 128 ^ (n + 1) → (encode_varint v).length ≤ n + 1 := by
  intro n
  induction n with
  | zero =>
    intro v hv
    rw [encode_varint_low (by simpa using hv)]
    simp
  | succ n ihn =>
    intro v hv
    by_cases h : v < 128
    · rw [encode_varint_low h]
      simp
    · rw [encode_varint_high (by omega)]
      simp only [List.length_cons]
      have : v / 128 < 128 ^ (n + 1) := by
        rw [Nat.div_lt_iff_lt_mul (by norm_num : (0 : ℕ) < 128)]
        calc v < 128 ^ (n + 1 + 1) := hv
          _ = 128 ^ (n + 1) * 128 := by rw [pow_succ]
      have := ihn (v / 128) this
      omega

lemma encode_varint_length_ge :
    ∀ n v : ℕ, 128 ^ n ≤ v → n + 1 ≤ (encode_varint v).length := by
  intro n
  induction n with
  | zero =>
    intro v _
    exact encode_varint_length_pos v
  | succ n ihn =>
    intro v hv
    have h128 : 128 ≤ v := by
      calc (128 : ℕ) = 128 ^ 1 := (pow_one 128).symm
        _ ≤ 128 ^ (n + 1) := Nat.pow_le_pow_right (by norm_num) (by omega)
        _ ≤ v := hv
    rw [encode_varint_high h128]
    simp only [List.length_cons]
    have : 128 ^ n ≤ v / 128 := by
      rw [Nat.le_div_iff_mul_le (by norm_num : (0 : ℕ) < 128)]
      calc 128 ^ n * 128 = 128 ^ (n + 1) := (pow_succ 128 n).symm
        _ ≤ v := hv
    have := ihn (v / 128) this
    omega

/-- When the value needs a tenth byte group (`v ≥ 2^(63 - shift)` at shift
`7 * k`), the decode loop hits the `shift > 56` guard and fails. -/
lemma decode_loop_err :
    ∀ (m k v value offset : ℕ) (tail : List ℕ),
      k + m = 8 → 7 * k ≤ 56 → 2 ^ (63 - 7 * k) ≤ v →
      decode_varint_loop (encode_varint v ++ tail) value (7 * k) offset
        = .error (.DecompressionFailed "Varint encoding too large") := by
  intro m
  induction m with
  | zero =>
    intro k v value offset tail hkm hk hv
    have hk8 : k = 8 := by omega
    subst hk8
    have h128 : 128 ≤ v := by
      have : (2 : ℕ) ^ (63 - 7 * 8) = 128 := by norm_num
      omega
    rw [encode_varint_high h128, List.cons_append]
    simp only [decode_varint_loop]
    rw [if_neg (by omega)]
    simp only [byte_and_127, byte_and_128]
    have hne : ((128 : ℕ) == 0) = false := by decide
    simp only [hne, Bool.false_eq_true, if_false]
    obtain ⟨y, l, hyl⟩ := encode_varint_cons (v / 128)
    rw [hyl, List.cons_append]
    simp only [decode_varint_loop]
    rw [if_pos (by omega)]
  | succ m ihm =>
    intro k v value offset tail hkm hk hv
    have hklt : 7 * k ≤ 49 := by omega
    have h128 : 128 ≤ v := by
      have : (2 : ℕ) ^ 7 ≤ 2 ^ (63 - 7 * k) :=
        Nat.pow_le_pow_right (by norm_num) (by omega)
      have : (2 : ℕ) ^ 7 = 128 := by norm_num
      omega
    rw [encode_varint_high h128, List.cons_append]
    simp only [decode_varint_loop]
    rw [if_neg (by omega)]
    simp only [byte_and_127, byte_and_128]
    have hne : ((128 : ℕ) == 0) = false := by decide
    simp only [hne, Bool.false_eq_true, if_false]
    have hstep : 7 * k + 7 = 7 * (k + 1) := by ring
    rw [hstep]
    apply ihm (k + 1) (v / 128) _ (offset + 1) tail (by omega) (by omega)
    rw [Nat.le_div_iff_mul_le (by norm_num : (0 : ℕ) < 128)]
    calc 2 ^ (63 - 7 * (k + 1)) * 128 = 2 ^ (63 - 7 * (k + 1)) * 2 ^ 7 := by norm_num
      _ = 2 ^ (63 - 7 * (k + 1) + 7) := (pow_add 2 _ _).symm
      _ = 2 ^ (63 - 7 * k) := by congr 1; omega
      _ ≤ v := hv

/-! ## Validation and compression lemmas -/

lemma validate_ids_ok_iff : ∀ l : List ℕ,
    validate_ids l = .ok () ↔ List.Chain' (· < ·) l
  | [] => by simp [validate_ids]
  | [a] => by simp [validate_ids]
  | a :: b :: rest => by
    rw [validate_ids]
    by_cases h : b ≤ a
    · rw [if_pos h]
      simp only [List.chain'_cons]
      constructor
      · intro hcontra
        exact absurd hcontra (by simp)
      · intro ⟨hab, _⟩
        omega
    · rw [if_neg h]
      rw [validate_ids_ok_iff (b :: rest)]
      simp only [List.chain'_cons]
      constructor
      · intro hc
        exact ⟨by omega, hc⟩
      · intro ⟨_, hc⟩
        exact hc

lemma validate_ids_cases : ∀ l : List ℕ,
    validate_ids l = .ok ()
      ∨ validate_ids l = .error (.InvalidInput "IDs must be sorted and unique")
  | [] => .inl rfl
  | [_] => .inl rfl
  | a :: b :: rest => by
    rw [validate_ids]
    by_cases h : b ≤ a
    · rw [if_pos h]
      exact .inr rfl
    · rw [if_neg h]
      exact validate_ids_cases (b :: rest)

/-- A strictly increasing list of naturals below `U` has at most `U`
elements. -/
lemma chain'_lt_length_le {l : List ℕ} {U : ℕ}
    (hc : List.Chain' (· < ·) l) (hm : ∀ x ∈ l, x < U) : l.length ≤ U := by
  have hp : l.Pairwise (· < ·) := List.chain'_iff_pairwise.mp hc
  have hnd : l.Nodup := hp.imp Nat.ne_of_lt
  have hsub : l.toFinset ⊆ Finset.range U := by
    intro x hx
    rw [List.mem_toFinset] at hx
    exact Finset.mem_range.mpr (hm x hx)
  have hcard := Finset.card_le_card hsub
  rw [Finset.card_range] at hcard
  rwa [List.toFinset_card_of_nodup hnd] at hcard

/-- On validated non-empty input, `compress_set` succeeds with the
count/first/deltas payload. -/
lemma compress_set_eq_ok (c : RocCompressor) {ids : List ℕ} {U : ℕ}
    (hchain : List.Chain' (· < ·) ids) (hmem : ∀ x ∈ ids, x < U)
    (hne : ids ≠ []) :
    c.compress_set ids U = .ok (compress_payload ids) := by
  unfold RocCompressor.compress_set
  rw [(validate_ids_ok_iff ids).mpr hchain]
  have hemp : ids.isEmpty = false := by
    cases ids
    · exact absurd rfl hne
    · rfl
  rw [hemp]
  simp only [Bool.false_eq_true, if_false]
  obtain ⟨m, hm⟩ : ∃ m, ids.max? = some m := by
    cases hmax : ids.max? with
    | none => exact absurd (List.max?_eq_none_iff.mp hmax) hne
    | some m => exact ⟨m, rfl⟩
  rw [hm]
  have hmmem : m ∈ ids := List.max?_mem max_choice hm
  change (if U ≤ m then Except.error (CompressionError.InvalidInput
      "ID exceeds universe size")
    else Except.ok (compress_payload ids)) = Except.ok (compress_payload ids)
  rw [if_neg (by have := hmem m hmmem; omega)]

/-- Decoding `remaining = rest.length` deltas of the encoded gaps of a
strictly increasing, bounded list appends exactly that list to the
accumulator and consumes exactly the encoded bytes, whatever follows. -/
lemma decode_deltas_spec :
    ∀ (rest : List ℕ) (prev : ℕ) (pre tail acc : List ℕ) (U : ℕ),
      U < 2 ^ 32 → List.Chain' (· < ·) (prev :: rest) →
      (∀ x ∈ prev :: rest, x < U) →
      decode_deltas (pre ++ (encode_deltas prev rest ++ tail)) U rest.length
          pre.length acc prev
        = .ok (acc ++ rest, pre.length + (encode_deltas prev rest).length) := by
  intro rest
  induction rest with
  | nil =>
    intro prev pre tail acc U hU hc hm
    simp [decode_deltas, encode_deltas]
  | cons x rest' ih =>
    intro prev pre tail acc U hU hc hm
    have hxU : x < U := hm x (by simp)
    have hpx : prev < x := (List.chain'_cons.mp hc).1
    have hdelta63 : x - prev < 2 ^ 63 := by
      have h32 : (2 : ℕ) ^ 32 < 2 ^ 63 := by norm_num
      omega
    have henc : encode_deltas prev (x :: rest')
        = encode_varint (x - prev) ++ encode_deltas x rest' := rfl
    simp only [List.length_cons, decode_deltas, henc]
    have hdrop : (pre ++ ((encode_varint (x - prev) ++ encode_deltas x rest')
        ++ tail)).drop pre.length
        = encode_varint (x - prev) ++ (encode_deltas x rest' ++ tail) := by
      rw [List.drop_left]
      rw [List.append_assoc]
    rw [hdrop, decode_varint_encode _ hdelta63]
    have hmod : (x - prev) % 2 ^ 32 = x - prev := Nat.mod_eq_of_lt (by omega)
    have hnext : (prev + (x - prev) % 2 ^ 32) % 2 ^ 32 = x := by
      rw [hmod]
      have : prev + (x - prev) = x := by omega
      rw [this]
      exact Nat.mod_eq_of_lt (by omega)
    simp only [hnext]
    rw [if_neg (by omega)]
    have hassoc : pre ++ ((encode_varint (x - prev) ++ encode_deltas x rest')
        ++ tail)
        = (pre ++ encode_varint (x - prev)) ++ (encode_deltas x rest' ++ tail) := by
      simp [List.append_assoc]
    rw [hassoc]
    have hlen : pre.length + (encode_varint (x - prev)).length
        = (pre ++ encode_varint (x - prev)).length := (List.length_append _ _).symm
    rw [hlen]
    rw [ih x (pre ++ encode_varint (x - prev)) tail (acc ++ [x]) U hU
      (List.chain'_cons.mp hc).2 (by intro y hy; exact hm y (by simp at hy ⊢; tauto))]
    simp only [Except.ok.injEq, Prod.mk.injEq]
    refine ⟨by simp, ?_⟩
    simp only [List.length_append]
    omega

/-- Decompressing a compressed payload of a valid non-empty set, followed by
any trailing bytes, returns the set exactly when there are no trailing bytes
and otherwise fails the leftover-bytes check. -/
lemma decompress_payload_eq (c : RocCompressor) (first : ℕ) (rest : List ℕ)
    (U : ℕ) (tail : List ℕ) (hU : U < 2 ^ 32)
    (hchain : List.Chain' (· < ·) (first :: rest))
    (hmem : ∀ x ∈ first :: rest, x < U) :
    c.decompress_set (compress_payload (first :: rest) ++ tail) U
      = if tail.isEmpty then .ok (first :: rest)
        else .error (.DecompressionFailed "Extra data after decompression") := by
  have hpow : (2 : ℕ) ^ 32 < 2 ^ 63 := by norm_num
  have hlenU : (first :: rest).length ≤ U := chain'_lt_length_le hchain hmem
  have hlen63 : (first :: rest).length < 2 ^ 63 := by omega
  have hfirstU : first < U := hmem first (by simp)
  have hfirst63 : first < 2 ^ 63 := by omega
  have hpayload : compress_payload (first :: rest)
      = encode_varint (first :: rest).length
        ++ (encode_varint first ++ encode_deltas first rest) := rfl
  unfold RocCompressor.decompress_set
  rw [hpayload, List.append_assoc]
  obtain ⟨y, l, hyl⟩ := encode_varint_cons ((first :: rest).length)
  have hemp : (encode_varint (first :: rest).length
      ++ ((encode_varint first ++ encode_deltas first rest) ++ tail)).isEmpty
      = false := by
    rw [hyl]
    rfl
  rw [hemp]
  simp only [Bool.false_eq_true, if_false]
  rw [decode_varint_encode _ hlen63]
  simp only []
  have hn0 : (((first :: rest).length : ℕ) == 0) = false := by simp
  rw [hn0]
  simp only [Bool.false_eq_true, if_false]
  rw [List.drop_left, List.append_assoc,
    decode_varint_encode (encode_deltas first rest ++ tail) hfirst63]
  simp only []
  rw [if_neg (by omega)]
  have hmodf : first % 2 ^ 32 = first := Nat.mod_eq_of_lt (by omega)
  rw [hmodf]
  have hsub1 : (first :: rest).length - 1 = rest.length := by simp
  rw [hsub1]
  have hshape : encode_varint (first :: rest).length
      ++ (encode_varint first ++ (encode_deltas first rest ++ tail))
      = (encode_varint (first :: rest).length ++ encode_varint first)
        ++ (encode_deltas first rest ++ tail) := by
    simp [List.append_assoc]
  rw [hshape]
  rw [← List.length_append (encode_varint (first :: rest).length)
    (encode_varint first)]
  rw [decode_deltas_spec rest first _ tail [first] U hU hchain hmem]
  simp only []
  cases tail with
  | nil =>
    rw [if_neg (by simp only [List.length_append, List.length_cons,
      List.length_nil]; omega)]
    simp
  | cons t ts =>
    rw [if_pos (by simp only [List.length_append, List.length_cons,
      List.length_nil]; omega)]
    simp

/-- Every id appended by the delta-decoding loop passes the universe check
and is reduced modulo `2^32`, so all output elements are below both bounds
provided the accumulator's are. -/
lemma decode_deltas_mem :
    ∀ (remaining : ℕ) (compressed : List ℕ) (U offset : ℕ) (acc : List ℕ)
      (last : ℕ) (out : List ℕ) (off : ℕ),
      decode_deltas compressed U remaining offset acc last = .ok (out, off) →
      (∀ x ∈ acc, x < U ∧ x < 2 ^ 32) → ∀ x ∈ out, x < U ∧ x < 2 ^ 32 := by
  intro remaining
  induction remaining with
  | zero =>
    intro compressed U offset acc last out off h hacc
    simp only [decode_deltas] at h
    injection h with h'
    have h1 : acc = out := congrArg Prod.fst h'
    exact h1 ▸ hacc
  | succ remaining ih =>
    intro compressed U offset acc last out off h hacc
    simp only [decode_deltas] at h
    cases hdv : decode_varint (compressed.drop offset) with
    | error e =>
      rw [hdv] at h
      exact absurd h (by simp)
    | ok p =>
      obtain ⟨delta, consumed⟩ := p
      rw [hdv] at h
      simp only [] at h
      by_cases hnext : U ≤ (last + delta % 2 ^ 32) % 2 ^ 32
      · rw [if_pos hnext] at h
        exact absurd h (by simp)
      · rw [if_neg hnext] at h
        refine ih compressed U (offset + consumed)
          (acc ++ [(last + delta % 2 ^ 32) % 2 ^ 32]) _ out off h ?_
        intro x hx
        rcases List.mem_append.mp hx with hx | hx
        · exact hacc x hx
        · have hxe : x = (last + delta % 2 ^ 32) % 2 ^ 32 := by simpa using hx
          subst hxe
          exact ⟨by omega, Nat.mod_lt _ (by norm_num)⟩

/-- Indexing fact: `l.getD n 0` agrees with indexing when `n` is in bounds. -/
lemma getD_eq_get_of_lt {l : List ℕ} {n : ℕ} (h : n < l.length) :
    l.getD n 0 = l.get ⟨n, h⟩ := by
  simp [List.getD_eq_getElem?_getD, List.getElem?_eq_getElem h]

/-- The consecutive-run deltas are all `1`, each encoding to one byte. -/
lemma encode_deltas_consecutive :
    ∀ (n k : ℕ), encode_deltas k (List.range' (k + 1) n) = List.replicate n 1 := by
  intro n
  induction n with
  | zero => intro k; rfl
  | succ n ih =>
    intro k
    rw [List.range'_succ]
    simp only [encode_deltas]
    have h1 : k + 1 - k = 1 := by omega
    rw [h1, encode_varint_low (by norm_num)]
    rw [ih (k + 1)]
    simp [List.replicate_succ]

/-- The theoretical-bits estimate is nonnegative in every branch. -/
lemma theoretical_bits_nonneg (n U : ℕ) : 0 ≤ theoretical_bits n U := by
  unfold theoretical_bits
  split_ifs with h0 h1 h2
  · exact le_refl 0
  · exact le_refl 0
  · exact le_refl 0
  · push_neg at h2
    have hlog : 0 ≤ Real.log ((U : ℝ) / (n : ℝ)) := Real.log_nonneg (le_of_lt h2)
    have hlog2 : 0 < Real.log 2 := Real.log_pos (by norm_num)
    exact div_nonneg (mul_nonneg (by positivity) hlog) (le_of_lt hlog2)

/-- For a `u32` universe the theoretical-bits estimate is at most
`32 * num_ids`: the density ratio is at most `2^32`, so its base-2
logarithm is at most `32`. -/
lemma theoretical_bits_le_mul (n U : ℕ) (hn : 0 < n) (hU : U < 2 ^ 32) :
    theoretical_bits n U ≤ 32 * (n : ℝ) := by
  unfold theoretical_bits
  split_ifs with h0 h1 h2
  · positivity
  · positivity
  · positivity
  · push_neg at h1 h2
    have hn0 : (0 : ℝ) < (n : ℝ) := by exact_mod_cast hn
    have hratio_pos : (0 : ℝ) < (U : ℝ) / (n : ℝ) := lt_trans zero_lt_one h2
    have hUb : (U : ℝ) ≤ 2 ^ 32 := by
      have h := le_of_lt hU
      exact_mod_cast h
    have hr_le : (U : ℝ) / (n : ℝ) ≤ 2 ^ 32 := by
      have h1' : (U : ℝ) / (n : ℝ) ≤ (U : ℝ) := by
        apply div_le_self (by positivity)
        exact_mod_cast hn
      linarith
    have hlog2 : 0 < Real.log 2 := Real.log_pos (by norm_num)
    have hlog_le : Real.log ((U : ℝ) / (n : ℝ)) ≤ 32 * Real.log 2 := by
      calc Real.log ((U : ℝ) / (n : ℝ)) ≤ Real.log ((2 : ℝ) ^ 32) :=
            Real.log_le_log hratio_pos hr_le
        _ = 32 * Real.log 2 := by
            rw [Real.log_pow]
            norm_num
    calc (n : ℝ) * Real.log ((U : ℝ) / (n : ℝ)) / Real.log 2
        ≤ (n : ℝ) * (32 * Real.log 2) / Real.log 2 := by
          apply (div_le_div_iff_of_pos_right hlog2).mpr
          exact mul_le_mul_of_nonneg_left hlog_le (le_of_lt hn0)
      _ = 32 * (n : ℝ) := by
          field_simp
          ring

/-! ## Claim theorems -/

/-- C1: for every strictly increasing list of `u32` ids whose elements are
all below `universe_size`, `compress_set` succeeds and `decompress_set` of
its output with the same `universe_size` returns exactly the input list. -/
theorem C1_roundtrip (ids : List ℕ) (U : ℕ) (hU : U < 2 ^ 32)
    (hchain : List.Chain' (· < ·) ids) (hmem : ∀ x ∈ ids, x < U) :
    ∃ buf, RocCompressor.new.compress_set ids U = .ok buf
      ∧ RocCompressor.new.decompress_set buf U = .ok ids := by
  cases ids with
  | nil => exact ⟨[], rfl, rfl⟩
  | cons first rest =>
    refine ⟨compress_payload (first :: rest),
      compress_set_eq_ok _ hchain hmem (by simp), ?_⟩
    have h := decompress_payload_eq RocCompressor.new first rest U [] hU
      hchain hmem
    rw [List.append_nil] at h
    simpa using h

/-- C1 witness: the roundtrip at the concrete input `[1, 5, 10]`,
`universe_size = 1000`. -/
theorem C1_roundtrip_witness :
    ∃ buf, RocCompressor.new.compress_set [1, 5, 10] 1000 = .ok buf
      ∧ RocCompressor.new.decompress_set buf 1000 = .ok [1, 5, 10] :=
  C1_roundtrip [1, 5, 10] 1000 (by decide) (by simp) (by decide)

/-- C2 counterexample: the empty buffer is a valid compressed buffer (it is
what `compress_set` returns for the empty set), yet appending the single
byte `0x00` to it makes `decompress_set` return `Ok []` — the `num_ids == 0`
early return skips the trailing-garbage check — rather than fail with
`DecompressionFailed` as the claim requires. -/
theorem C2_counterexample :
    RocCompressor.new.compress_set [] 1000 = .ok []
      ∧ RocCompressor.new.decompress_set ([] ++ [0]) 1000 = .ok [] := by
  constructor
  · rfl
  · decide

/-- C2 amended: appending any extra byte to a compressed buffer produced
from a *non-empty* valid set makes `decompress_set` fail with a
`DecompressionFailed` error (whose message the source formats with the
leftover byte count, so only the error kind is pinned here); for the empty
buffer the guarantee fails (appending the byte `0` decodes to `Ok []`, see
the counterexample). -/
theorem C2_trailing_garbage (ids : List ℕ) (U b : ℕ) (hne : ids ≠ [])
    (hU : U < 2 ^ 32) (hchain : List.Chain' (· < ·) ids)
    (hmem : ∀ x ∈ ids, x < U) :
    ∃ buf, RocCompressor.new.compress_set ids U = .ok buf
      ∧ ∃ msg, RocCompressor.new.decompress_set (buf ++ [b]) U
          = .error (.DecompressionFailed msg) := by
  cases ids with
  | nil => exact absurd rfl hne
  | cons first rest =>
    refine ⟨compress_payload (first :: rest),
      compress_set_eq_ok _ hchain hmem (by simp),
      "Extra data after decompression", ?_⟩
    have h := decompress_payload_eq RocCompressor.new first rest U [b] hU
      hchain hmem
    simpa using h

/-- C2 witness: the amended trailing-garbage property at the concrete input
`[1, 2]`, `universe_size = 10`, appended byte `0`. -/
theorem C2_trailing_garbage_witness :
    ∃ buf, RocCompressor.new.compress_set [1, 2] 10 = .ok buf
      ∧ ∃ msg, RocCompressor.new.decompress_set (buf ++ [0]) 10
          = .error (.DecompressionFailed msg) :=
  C2_trailing_garbage [1, 2] 10 0 (by decide) (by decide) (by simp) (by decide)

/-- C5 counterexample: the byte input `[2, 5, 0]` (count `2`, first id `5`,
delta `0`) is accepted by `decompress_set` with `universe_size = 10` and
yields `[5, 5]`, which is not strictly increasing — a zero delta reproduces
the previous id and is not rejected. -/
theorem C5_counterexample :
    RocCompressor.new.decompress_set [2, 5, 0] 10 = .ok [5, 5]
      ∧ ¬ List.Chain' (· < ·) [5, 5] := by
  constructor
  · decide
  · simp

/-- C5 amended: the list returned by a successful `decompress_set` is
strictly increasing whenever the input buffer was produced by a successful
`compress_set` call; for arbitrary byte inputs (e.g. payloads containing a
zero delta) the output can fail to be strictly increasing. -/
theorem C5_sorted_on_compressed (ids : List ℕ) (U : ℕ) (buf out : List ℕ)
    (hU : U < 2 ^ 32) (hchain : List.Chain' (· < ·) ids)
    (hmem : ∀ x ∈ ids, x < U)
    (hbuf : RocCompressor.new.compress_set ids U = .ok buf)
    (hout : RocCompressor.new.decompress_set buf U = .ok out) :
    List.Chain' (· < ·) out := by
  cases ids with
  | nil =>
    have h0 : RocCompressor.new.compress_set [] U = .ok [] := rfl
    rw [h0] at hbuf
    injection hbuf with hb
    subst hb
    have h1 : RocCompressor.new.decompress_set [] U = .ok [] := rfl
    rw [h1] at hout
    injection hout with ho
    subst ho
    exact List.chain'_nil
  | cons first rest =>
    rw [compress_set_eq_ok _ hchain hmem (by simp)] at hbuf
    injection hbuf with hb
    subst hb
    have h := decompress_payload_eq RocCompressor.new first rest U [] hU
      hchain hmem
    rw [List.append_nil] at h
    simp only [List.isEmpty_nil, if_true] at h
    rw [h] at hout
    injection hout with ho
    subst ho
    exact hchain

/-- C5 witness: the amended sortedness property at the concrete input
`[1, 2]`, `universe_size = 10`. -/
theorem C5_sorted_on_compressed_witness : List.Chain' (· < ·) [1, 2] :=
  C5_sorted_on_compressed [1, 2] 10 (compress_payload [1, 2]) [1, 2]
    (by decide) (by simp) (by decide)
    (compress_set_eq_ok RocCompressor.new (by simp) (by decide) (by decide))
    (by
      have h := decompress_payload_eq RocCompressor.new 1 [2] 10 []
        (by decide) (by simp) (by decide)
      rw [List.append_nil] at h
      simpa using h)

/-- C8: for every `universe_size` (including `0`), compressing the empty
set yields the empty buffer and decompressing the empty buffer yields the
empty set. -/
theorem C8_empty_set (U : ℕ) :
    RocCompressor.new.compress_set [] U = .ok []
      ∧ RocCompressor.new.decompress_set [] U = .ok [] :=
  ⟨rfl, rfl⟩

/-- C9: a compressor built with `with_precision p` behaves identically to
one built with `new` on all four operations, for every precision and every
argument — the stored precision is never read, which also yields
byte-identical determinism of `compress_set`. -/
theorem C9_precision_noninterference (p : ℕ) (ids buf : List ℕ)
    (U n m : ℕ) :
    (RocCompressor.with_precision p).compress_set ids U
        = RocCompressor.new.compress_set ids U
    ∧ (RocCompressor.with_precision p).decompress_set buf U
        = RocCompressor.new.decompress_set buf U
    ∧ (RocCompressor.with_precision p).estimate_size n m
        = RocCompressor.new.estimate_size n m
    ∧ (RocCompressor.with_precision p).bits_per_id n m
        = RocCompressor.new.bits_per_id n m :=
  ⟨rfl, rfl, rfl, rfl⟩

/-- C3 counterexample: `num_ids = 2 > 1 = universe_size`, yet
`estimate_size 2 1 = 3`, not `0` as the claim requires — the varint
overhead `(num_ids * 3) / 2` is added even in the degenerate regime. -/
theorem C3_counterexample :
    (1 : ℕ) < 2 ∧ RocCompressor.new.estimate_size 2 1 = 3
      ∧ RocCompressor.new.estimate_size 2 1 ≠ 0 := by
  have h : RocCompressor.new.estimate_size 2 1 = 3 := by
    unfold RocCompressor.estimate_size theoretical_bits
    norm_num
  exact ⟨by norm_num, h, by omega⟩

/-- C3 amended: both estimators return `0` for `num_ids = 0`, and
`bits_per_id` returns `0` for `num_ids > universe_size`; but in that
degenerate regime `estimate_size` is not `0`: it returns the `usize`
overhead term `(num_ids * 3 mod 2^64) / 2`, which is positive for small
`num_ids` (e.g. `3` at `num_ids = 2`) though the wrapping product can make
it `0` again for huge `num_ids` (e.g. `num_ids = 12297829382473034411`,
where `num_ids * 3 ≡ 1 (mod 2^64)`; with overflow checks that product
panics).  For non-empty inputs with `num_ids ≤ universe_size` — hence
below the `u32` bound `2^32` — `estimate_size` is positive. -/
theorem C3_estimators (n U : ℕ) :
    RocCompressor.new.estimate_size 0 U = 0
    ∧ RocCompressor.new.bits_per_id 0 U = 0
    ∧ (U < n → RocCompressor.new.bits_per_id n U = 0)
    ∧ (U < n → RocCompressor.new.estimate_size n U = n * 3 % 2 ^ 64 / 2)
    ∧ RocCompressor.new.estimate_size 12297829382473034411 1 = 0
    ∧ (0 < n → n ≤ U → U < 2 ^ 32 → 0 < RocCompressor.new.estimate_size n U) := by
  have hdeg : ∀ (a b : ℕ), b < a →
      RocCompressor.new.estimate_size a b = a * 3 % 2 ^ 64 / 2 := by
    intro a b hab
    have h0 : a ≠ 0 := by omega
    unfold RocCompressor.estimate_size
    rw [if_neg h0]
    have htb : theoretical_bits a b = 0 := by
      unfold theoretical_bits
      rw [if_neg h0, if_pos hab]
    rw [htb]
    norm_num
    have hm : a * 3 % 2 ^ 64 < 2 ^ 64 := Nat.mod_lt _ (by norm_num)
    omega
  refine ⟨?_, ?_, ?_, hdeg n U, ?_, ?_⟩
  · simp [RocCompressor.estimate_size]
  · simp [RocCompressor.bits_per_id]
  · intro h
    have hn : n ≠ 0 := by omega
    unfold RocCompressor.bits_per_id theoretical_bits
    rw [if_neg hn, if_neg hn, if_pos h]
    simp
  · rw [hdeg 12297829382473034411 1 (by norm_num)]
    norm_num
  · intro hn hnU hU32
    unfold RocCompressor.estimate_size
    rw [if_neg (by omega)]
    have htb_le : theoretical_bits n U ≤ 32 * (n : ℝ) :=
      theoretical_bits_le_mul n U hn hU32
    have htb_nn : 0 ≤ theoretical_bits n U := theoretical_bits_nonneg n U
    have hfloor : ⌊theoretical_bits n U / 8⌋₊ ≤ 4 * n := by
      have h8 : theoretical_bits n U / 8 ≤ ((4 * n : ℕ) : ℝ) := by
        push_cast
        linarith
      calc ⌊theoretical_bits n U / 8⌋₊ ≤ ⌊((4 * n : ℕ) : ℝ)⌋₊ :=
            Nat.floor_mono h8
        _ = 4 * n := Nat.floor_natCast _
    have hAle : min ⌊theoretical_bits n U / 8⌋₊ (2 ^ 64 - 1) ≤ 4 * n :=
      le_trans (min_le_left _ _) hfloor
    have hn32 : n < 2 ^ 32 := by omega
    have hmul : n * 3 < 2 ^ 64 := by omega
    have hB : n * 3 % 2 ^ 64 = n * 3 := Nat.mod_eq_of_lt hmul
    rw [hB]
    have hsum_lt : min ⌊theoretical_bits n U / 8⌋₊ (2 ^ 64 - 1) + n * 3 / 2
        < 2 ^ 64 := by omega
    rw [Nat.mod_eq_of_lt hsum_lt]
    omega

/-- C3 witness: the amended estimator facts at `(3, 2)` and `(2, 2)`. -/
theorem C3_estimators_witness :
    RocCompressor.new.bits_per_id 3 2 = 0
      ∧ 0 < RocCompressor.new.estimate_size 2 2 :=
  ⟨(C3_estimators 3 2).2.2.1 (by norm_num),
   (C3_estimators 2 2).2.2.2.2.2 (by norm_num) (by norm_num) (by norm_num)⟩

/-- C4 counterexample: `2^63` encodes to 10 bytes, but `decode_varint`
rejects its own encoder's output — the `shift > 56` guard fires before the
tenth byte is consumed, so the codec is not an inverse pair on all of
`u64`. -/
theorem C4_counterexample :
    (encode_varint (2 ^ 63)).length = 10
      ∧ decode_varint (encode_varint (2 ^ 63))
          = .error (.DecompressionFailed "Varint encoding too large") := by
  constructor
  · have h1 := encode_varint_length_ge 9 (2 ^ 63) (by norm_num)
    have h2 := encode_varint_length_le 9 (2 ^ 63) (by norm_num)
    omega
  · have h := decode_loop_err 8 0 (2 ^ 63) 0 0 [] (by norm_num) (by norm_num)
      (by norm_num)
    rw [List.append_nil] at h
    simpa [decode_varint] using h

/-- C4 amended: every `u64` encodes to between 1 and 10 bytes; decoding the
encoder's output returns exactly the value and consumes exactly the encoded
length for all values below `2^63` (which covers every count, id and delta
the compressor ever encodes), while for values `≥ 2^63` (10-byte
encodings) `decode_varint` fails with `DecompressionFailed` because of the
`shift > 56` guard. -/
theorem C4_varint_roundtrip (v : ℕ) (hv : v < 2 ^ 64) :
    (1 ≤ (encode_varint v).length ∧ (encode_varint v).length ≤ 10)
    ∧ (v < 2 ^ 63 →
        decode_varint (encode_varint v) = .ok (v, (encode_varint v).length))
    ∧ (2 ^ 63 ≤ v →
        decode_varint (encode_varint v)
          = .error (.DecompressionFailed "Varint encoding too large")) := by
  refine ⟨⟨encode_varint_length_pos v, ?_⟩, ?_, ?_⟩
  · refine encode_varint_length_le 9 v ?_
    have : (2 : ℕ) ^ 64 ≤ 128 ^ (9 + 1) := by norm_num
    omega
  · intro h63
    have h := decode_varint_encode (v := v) [] h63
    rwa [List.append_nil] at h
  · intro h63
    have h := decode_loop_err 8 0 v 0 0 [] (by norm_num) (by norm_num)
      (by simpa using h63)
    rw [List.append_nil] at h
    simpa [decode_varint] using h

/-- C4 witness: the varint roundtrip at the concrete value `300`. -/
theorem C4_varint_roundtrip_witness :
    decode_varint (encode_varint 300) = .ok (300, (encode_varint 300).length) :=
  (C4_varint_roundtrip 300 (by norm_num)).2.1 (by norm_num)

/-- C6 counterexample: the input `[2, 10, 255, 255, 255, 255, 15]` with
`universe_size = 100` decodes the delta `2^32 - 1`; the reconstruction
`10 + (2^32 - 1)` exceeds `u32` yet the input is accepted: the sum wraps to
`9`, which passes the universe check, and `decompress_set` returns
`Ok [10, 9]`. -/
theorem C6_counterexample :
    RocCompressor.new.decompress_set [2, 10, 255, 255, 255, 255, 15] 100
        = .ok [10, 9]
      ∧ decode_varint [255, 255, 255, 255, 15] = .ok (2 ^ 32 - 1, 5)
      ∧ 2 ^ 32 ≤ 10 + (2 ^ 32 - 1) := by
  refine ⟨by decide, by decide, by norm_num⟩

/-- C6 amended: `decompress_set` (modelled with wrapping `u32` addition,
the release-profile semantics of `previous + delta as u32`) always returns
either `Ok` or a typed error, and every id in an `Ok` result is below both
`universe_size` and `2^32`; but the claim's stronger assertion — that the
reconstruction `previous + delta` itself stays within `u32` on every
accepted input — fails, as the counterexample's accepted wrap shows (and
with overflow checks enabled that addition panics instead). -/
theorem C6_total_bounded (buf : List ℕ) (U : ℕ) :
    ((∃ ids, RocCompressor.new.decompress_set buf U = .ok ids)
      ∨ (∃ e, RocCompressor.new.decompress_set buf U = .error e))
    ∧ (∀ ids, RocCompressor.new.decompress_set buf U = .ok ids →
        ∀ x ∈ ids, x < U ∧ x < 2 ^ 32) := by
  constructor
  · cases hres : RocCompressor.new.decompress_set buf U with
    | error e => exact .inr ⟨e, rfl⟩
    | ok ids => exact .inl ⟨ids, rfl⟩
  · intro ids h x hx
    unfold RocCompressor.decompress_set at h
    by_cases hemp : buf.isEmpty = true
    · rw [if_pos hemp] at h
      injection h with h'
      subst h'
      simp at hx
    · rw [if_neg hemp] at h
      cases hdv : decode_varint buf with
      | error e =>
        rw [hdv] at h
        exact absurd h (by simp)
      | ok p =>
        obtain ⟨num, c1⟩ := p
        rw [hdv] at h
        simp only [] at h
        by_cases hz : (num == 0) = true
        · rw [if_pos hz] at h
          injection h with h'
          subst h'
          simp at hx
        · rw [if_neg hz] at h
          cases hdv2 : decode_varint (buf.drop c1) with
          | error e =>
            rw [hdv2] at h
            exact absurd h (by simp)
          | ok q =>
            obtain ⟨fid, c2⟩ := q
            rw [hdv2] at h
            simp only [] at h
            by_cases hf : U ≤ fid
            · rw [if_pos hf] at h
              exact absurd h (by simp)
            · rw [if_neg hf] at h
              cases hdd : decode_deltas buf U (num - 1) (c1 + c2)
                  [fid % 2 ^ 32] (fid % 2 ^ 32) with
              | error e =>
                rw [hdd] at h
                exact absurd h (by simp)
              | ok r =>
                obtain ⟨out, off⟩ := r
                rw [hdd] at h
                simp only [] at h
                by_cases ho : off < buf.length
                · rw [if_pos ho] at h
                  exact absurd h (by simp)
                · rw [if_neg ho] at h
                  injection h with h'
                  subst h'
                  refine decode_deltas_mem (num - 1) buf U (c1 + c2)
                    [fid % 2 ^ 32] (fid % 2 ^ 32) out off hdd ?_ x hx
                  intro y hy
                  have hye : y = fid % 2 ^ 32 := by simpa using hy
                  subst hye
                  have hmle : fid % 2 ^ 32 ≤ fid := Nat.mod_le _ _
                  exact ⟨by omega, Nat.mod_lt _ (by norm_num)⟩

/-- C6 witness: the amended bound extracted at the concrete accepted input
`[2, 5, 0]` with `universe_size = 10`. -/
theorem C6_total_bounded_witness : 5 < 10 ∧ 5 < 2 ^ 32 :=
  (C6_total_bounded [2, 5, 0] 10).2 [5, 5] (by decide) 5 (by simp)

/-- C7: `compress_set` fails — always with `InvalidInput` — exactly when
some adjacent pair is non-increasing (`ids[j+1] ≤ ids[j]`) or the list is
non-empty with an element `≥ universe_size`; in every other case it returns
`Ok`.  Failure returns only the error value, so no output bytes are
produced. -/
theorem C7_invalid_input_iff (ids : List ℕ) (U : ℕ) :
    ((∃ msg, RocCompressor.new.compress_set ids U = .error (.InvalidInput msg))
      ↔ ((∃ j, j + 1 < ids.length ∧ ids.getD (j + 1) 0 ≤ ids.getD j 0)
          ∨ (ids ≠ [] ∧ ∃ x ∈ ids, U ≤ x)))
    ∧ ((∃ buf, RocCompressor.new.compress_set ids U = .ok buf)
      ↔ ¬ ((∃ j, j + 1 < ids.length ∧ ids.getD (j + 1) 0 ≤ ids.getD j 0)
          ∨ (ids ≠ [] ∧ ∃ x ∈ ids, U ≤ x))) := by
  have hdis : (∃ j, j + 1 < ids.length ∧ ids.getD (j + 1) 0 ≤ ids.getD j 0)
      ↔ ¬ List.Chain' (· < ·) ids := by
    constructor
    · rintro ⟨j, hj, hle⟩ hch
      have h2 := List.chain'_iff_get.mp hch j (by omega)
      rw [getD_eq_get_of_lt hj, getD_eq_get_of_lt (by omega : j < ids.length)]
        at hle
      exact absurd h2 (not_lt.mpr hle)
    · intro hch
      by_contra hno
      push_neg at hno
      apply hch
      apply List.chain'_iff_get.mpr
      intro i hi
      have hfact := hno i (by omega)
      rw [getD_eq_get_of_lt (by omega : i + 1 < ids.length),
        getD_eq_get_of_lt (by omega : i < ids.length)] at hfact
      exact hfact
  by_cases hch : List.Chain' (· < ·) ids
  · have hv : validate_ids ids = .ok () := (validate_ids_ok_iff ids).mpr hch
    by_cases hne : ids = []
    · subst hne
      have hcomp : RocCompressor.new.compress_set [] U = .ok [] := rfl
      constructor
      · constructor
        · rintro ⟨msg, hmsg⟩
          rw [hcomp] at hmsg
          exact absurd hmsg (by simp)
        · rintro (⟨j, hj, _⟩ | ⟨hne', _⟩)
          · simp at hj
          · exact absurd rfl hne'
      · constructor
        · rintro _ (⟨j, hj, _⟩ | ⟨hne', _⟩)
          · simp at hj
          · exact absurd rfl hne'
        · intro _
          exact ⟨[], hcomp⟩
    · obtain ⟨m, hm⟩ : ∃ m, ids.max? = some m := by
        cases hmax : ids.max? with
        | none => exact absurd (List.max?_eq_none_iff.mp hmax) hne
        | some m => exact ⟨m, rfl⟩
      have hmmem : m ∈ ids := List.max?_mem max_choice hm
      have hmub : ∀ b ∈ ids, b ≤ m :=
        (List.max?_le_iff (fun _ _ _ => Nat.max_le) hm).mp le_rfl
      have hbound : (∃ x ∈ ids, U ≤ x) ↔ U ≤ m := by
        constructor
        · rintro ⟨x, hx, hUx⟩
          exact le_trans hUx (hmub x hx)
        · intro h
          exact ⟨m, hmmem, h⟩
      by_cases hU : U ≤ m
      · have hcomp : RocCompressor.new.compress_set ids U
            = .error (.InvalidInput "ID exceeds universe size") := by
          unfold RocCompressor.compress_set
          rw [hv]
          have hemp : ids.isEmpty = false := by
            cases ids
            · exact absurd rfl hne
            · rfl
          rw [hemp]
          simp only [Bool.false_eq_true, if_false]
          rw [hm]
          change (if U ≤ m then Except.error (CompressionError.InvalidInput
              "ID exceeds universe size")
            else Except.ok (compress_payload ids)) = _
          rw [if_pos hU]
        constructor
        · constructor
          · intro _
            exact .inr ⟨hne, hbound.mpr hU⟩
          · intro _
            exact ⟨_, hcomp⟩
        · constructor
          · rintro ⟨buf, hbuf⟩
            rw [hcomp] at hbuf
            exact absurd hbuf (by simp)
          · intro hno
            exact absurd (.inr ⟨hne, hbound.mpr hU⟩) hno
      · have hmemU : ∀ x ∈ ids, x < U := by
          intro x hx
          have := hmub x hx
          omega
        have hcomp := compress_set_eq_ok RocCompressor.new hch hmemU hne
        constructor
        · constructor
          · rintro ⟨msg, hmsg⟩
            rw [hcomp] at hmsg
            exact absurd hmsg (by simp)
          · rintro (hdisj | ⟨_, hb⟩)
            · exact absurd hch (hdis.mp hdisj)
            · exact absurd (hbound.mp hb) hU
        · constructor
          · rintro _ (hdisj | ⟨_, hb⟩)
            · exact absurd hch (hdis.mp hdisj)
            · exact absurd (hbound.mp hb) hU
          · intro _
            exact ⟨_, hcomp⟩
  · have hv : validate_ids ids
        = .error (.InvalidInput "IDs must be sorted and unique") := by
      rcases validate_ids_cases ids with h | h
      · exact absurd ((validate_ids_ok_iff ids).mp h) hch
      · exact h
    have hcomp : RocCompressor.new.compress_set ids U
        = .error (.InvalidInput "IDs must be sorted and unique") := by
      unfold RocCompressor.compress_set
      rw [hv]
    constructor
    · constructor
      · intro _
        exact .inl (hdis.mpr hch)
      · intro _
        exact ⟨_, hcomp⟩
    · constructor
      · rintro ⟨buf, hbuf⟩
        rw [hcomp] at hbuf
        exact absurd hbuf (by simp)
      · intro hno
        exact absurd (.inl (hdis.mpr hch)) hno

/-- C7 witness: the unsorted input `[5, 1, 10]` is rejected with
`InvalidInput`. -/
theorem C7_invalid_input_iff_witness :
    ∃ msg, RocCompressor.new.compress_set [5, 1, 10] 1000
      = .error (.InvalidInput msg) :=
  (C7_invalid_input_iff [5, 1, 10] 1000).1.mpr (.inl ⟨0, by decide, by decide⟩)

/-- C10: compressing the 100 consecutive ids `0..99` with
`universe_size = 1000` succeeds and the output (101 bytes: one count byte,
one first-id byte, 99 one-byte deltas) is strictly smaller than the raw
`100 × 4` bytes. -/
theorem C10_dense_compactness :
    ∃ buf, RocCompressor.new.compress_set (List.range 100) 1000 = .ok buf
      ∧ buf.length < 100 * 4 := by
  have hchain : List.Chain' (· < ·) (List.range 100) :=
    List.chain'_iff_pairwise.mpr (List.pairwise_lt_range 100)
  have hmem : ∀ x ∈ List.range 100, x < 1000 := by
    intro x hx
    have := List.mem_range.mp hx
    omega
  refine ⟨_, compress_set_eq_ok _ hchain hmem (by simp), ?_⟩
  have hr : List.range 100 = 0 :: List.range' 1 99 := by
    rw [List.range_eq_range', List.range'_succ]
  rw [hr]
  have hp : compress_payload (0 :: List.range' 1 99)
      = encode_varint (0 :: List.range' 1 99).length
        ++ (encode_varint 0 ++ encode_deltas 0 (List.range' 1 99)) := rfl
  rw [hp]
  have hlen : (0 :: List.range' 1 99).length = 100 := by simp
  rw [hlen]
  have hd : encode_deltas 0 (List.range' 1 99) = List.replicate 99 1 := by
    have h := encode_deltas_consecutive 99 0
    simpa using h
  rw [hd, encode_varint_low (by norm_num), encode_varint_low (by norm_num)]
  simp
